import Mathlib

/-
Verification of the prenomscope preprocessing core.

Shallow embedding of the name-normalization functions of
src/preprocessing/process_data.py (normalize_name_accent,
normalize_name_phonetic, print_statistics, add_column_to_dataframe)
and of src/create_accent_agnostic_parquet.py
(normalize_name_accent_agnostic).

Strings are modelled as List Char.  Python values flowing through the
dataframe are modelled by the type Value below; the folding functions
take and return Value, mirroring the guard
`if not name or not isinstance(name, str): return name`.

The Unicode-dependent primitives str.lower, str.strip and the regex
class \s are modelled on the Latin repertoire this program manipulates
(ASCII plus the Latin-1 / Latin Extended-A / Latin Extended-B letters
occurring in the accent tables of the two source files); characters
outside that repertoire are left unchanged, exactly as the Python
functions leave unrelated characters unchanged.
-/

/-- A name string, modelled as its list of characters. -/
abbrev Name := List Char

/-- Model of Python str.lower restricted to the Latin letters relevant to
this program: ASCII A-Z, the accented uppercase letters of the accent
tables, and the Latin Extended letters occurring in the (mojibake)
tables of create_accent_agnostic_parquet.py.  Other characters map to
themselves. -/
def lowerTable : List (Char × Char) :=
  [('A','a'), ('B','b'), ('C','c'), ('D','d'), ('E','e'), ('F','f'), ('G','g'),
   ('H','h'), ('I','i'), ('J','j'), ('K','k'), ('L','l'), ('M','m'), ('N','n'),
   ('O','o'), ('P','p'), ('Q','q'), ('R','r'), ('S','s'), ('T','t'), ('U','u'),
   ('V','v'), ('W','w'), ('X','x'), ('Y','y'), ('Z','z'),
   ('À','à'), ('Â','â'), ('Ä','ä'), ('É','é'), ('È','è'), ('Ê','ê'), ('Ë','ë'),
   ('Ï','ï'), ('Î','î'), ('Ô','ô'), ('Ö','ö'), ('Ù','ù'), ('Û','û'), ('Ü','ü'),
   ('Ÿ','ÿ'), ('Ý','ý'), ('Ç','ç'), ('Ñ','ñ'),
   ('Ă','ă'), ('Č','č'), ('Œ','œ'),
   ('Š','š'), ('Ź','ź'), ('Ż','ż'),
   ('Ž','ž'), ('Ș','ș')]

/-- Lowercase one character (model of Python str.lower, per character). -/
def pyLowerChar (c : Char) : Char :=
  match lowerTable.find? (fun q => q.1 == c) with
  | some q => q.2
  | none => c

/-- Model of the Python whitespace class (str.isspace and the regex
class \s): ASCII whitespace plus NEL and NBSP. -/
def isPySpace (c : Char) : Bool :=
  c = ' ' ∨ c = '\t' ∨ c = '\n' ∨ c = '\x0b' ∨ c = '\x0c' ∨ c = '\r' ∨
  c = '\x85' ∨ c = '\xa0'

/-- Drop the trailing characters satisfying p (helper for str.strip). -/
def dropTrailing (p : Char → Bool) (s : Name) : Name :=
  ((s.reverse).dropWhile p).reverse

/-- Strip characters satisfying p from both ends (model of str.strip
with a character set). -/
def stripEnds (p : Char → Bool) (s : Name) : Name :=
  dropTrailing p (s.dropWhile p)

/-- Model of str.strip() with no argument: strip whitespace at both ends. -/
def pyStrip (s : Name) : Name := stripEnds isPySpace s

/-- The accent_patterns table of normalize_name_accent in
src/preprocessing/process_data.py: each entry is a regex character
class together with its replacement character. -/
def accent_patterns : List (List Char × Char) :=
  [(['à','â','ä'], 'a'),
   (['é','è','ê','ë'], 'e'),
   (['ï','î'], 'i'),
   (['ô','ö'], 'o'),
   (['ù','û','ü'], 'u'),
   (['ÿ','ý'], 'y'),
   (['ç'], 'c'),
   (['ñ'], 'n')]

/-- One application of re.sub with a character class: every character in
cls is replaced by r, all other characters are kept. -/
def subCharClass (s : Name) (cls : List Char) (r : Char) : Name :=
  s.map (fun c => if c ∈ cls then r else c)

/-- The loop `for pattern, replacement in accent_patterns.items()` of
normalize_name_accent: the eight class substitutions applied in table
order. -/
def applyAccentPatterns (s : Name) : Name :=
  accent_patterns.foldl (fun t q => subCharClass t q.1 q.2) s

/-- The string-processing body of normalize_name_accent
(src/preprocessing/process_data.py lines 31-51): lowercase, strip
whitespace, then apply the accent patterns. -/
def accentCore (s : Name) : Name :=
  applyAccentPatterns (pyStrip (s.map pyLowerChar))

/-- normalize_name_accent on a string argument, including the
empty-string identity branch of the guard. -/
def normalize_name_accent_str (s : Name) : Name :=
  if s = [] then s else accentCore s

/-- re.sub of "y" by "i" (step 2 of normalize_name_phonetic). -/
def subY (s : Name) : Name :=
  s.map (fun c => if c = 'y' then 'i' else c)

/-- re.sub of the pattern matching a character followed by one or more
repetitions of the same character, replaced by a single occurrence
(step 3).  The dot of the Python pattern does not match a newline, so
runs of newlines are kept. -/
def collapseRuns : Name → Name
  | c :: d :: rest =>
      if c = d ∧ c ≠ '\n' then collapseRuns (d :: rest)
      else c :: collapseRuns (d :: rest)
  | s => s

/-- re.sub of "ard" anchored at the end by the dollar sign (step 4).
In Python the dollar also matches just before a trailing newline, so
both suffix shapes are handled. -/
def subArdEnd (s : Name) : Name :=
  if ['a','r','d'].isSuffixOf s then s.dropLast
  else if ['a','r','d','\n'].isSuffixOf s then
    s.take (s.length - 4) ++ ['a','r','\n']
  else s

/-- re.sub replacing every occurrence of "ph" by "f", scanning left to
right without overlap (step 5). -/
def subPh : Name → Name
  | c :: d :: rest =>
      if c = 'p' ∧ d = 'h' then 'f' :: subPh rest
      else c :: subPh (d :: rest)
  | s => s

/-- re.sub replacing every occurrence of "ck" or "qu" by "k", scanning
left to right without overlap (step 6). -/
def subCkQu : Name → Name
  | c :: d :: rest =>
      if (c = 'c' ∧ d = 'k') ∨ (c = 'q' ∧ d = 'u') then 'k' :: subCkQu rest
      else c :: subCkQu (d :: rest)
  | s => s

/-- re.sub of "ie" anchored at the end by the dollar sign (step 7),
with the same trailing-newline subtlety as subArdEnd. -/
def subIeEnd (s : Name) : Name :=
  if ['i','e'].isSuffixOf s then s.dropLast
  else if ['i','e','\n'].isSuffixOf s then
    s.take (s.length - 3) ++ ['i','\n']
  else s

/-- re.sub removing every occurrence of "h" (step 8). -/
def removeH (s : Name) : Name :=
  s.filter (fun c => !(c == 'h'))

/-- re.sub collapsing every maximal run of whitespace to one space
(step 9, first substitution). -/
def collapseSpaces : Name → Name
  | c :: d :: rest =>
      if isPySpace c ∧ isPySpace d then collapseSpaces (d :: rest)
      else (if isPySpace c then ' ' else c) :: collapseSpaces (d :: rest)
  | [c] => if isPySpace c then [' '] else [c]
  | [] => []

/-- re.sub collapsing every maximal run of hyphens to one hyphen
(step 9, second substitution). -/
def collapseHyphens : Name → Name
  | c :: d :: rest =>
      if c = '-' ∧ d = '-' then collapseHyphens (d :: rest)
      else c :: collapseHyphens (d :: rest)
  | s => s

/-- Membership test for the set of the two characters stripped by
`name.strip("- ")`. -/
def isDashSpace (c : Char) : Bool := c = '-' ∨ c = ' '

/-- Steps 2 to 9 of normalize_name_phonetic, applied after the accent
normalization. -/
def phonSteps (s : Name) : Name :=
  stripEnds isDashSpace
    (collapseHyphens
      (collapseSpaces
        (removeH
          (subIeEnd
            (subCkQu
              (subPh
                (subArdEnd
                  (collapseRuns
                    (subY s)))))))))

/-- normalize_name_phonetic on a string argument, including the
empty-string identity branch of the guard. -/
def normalize_name_phonetic_str (s : Name) : Name :=
  if s = [] then s else phonSteps (accentCore s)

/-- A Python value as it may occur in the name column: a string, None,
an integer or a boolean.  The folding functions only process non-empty
strings and return every other value unchanged. -/
inductive Value where
  | str : Name → Value
  | none : Value
  | int : Int → Value
  | bool : Bool → Value
deriving DecidableEq

/-- The guard `not name or not isinstance(name, str)` is False exactly
on non-empty strings. -/
def isNonEmptyString : Value → Bool
  | Value.str s => !s.isEmpty
  | _ => false

/-- normalize_name_accent of src/preprocessing/process_data.py: the
guard returns any non-string and the empty string unchanged; a
non-empty string is lowercased, stripped and accent-folded. -/
def normalize_name_accent : Value → Value
  | Value.str s => Value.str (normalize_name_accent_str s)
  | v => v

/-- normalize_name_phonetic of src/preprocessing/process_data.py: the
guard returns any non-string and the empty string unchanged; a
non-empty string goes through the accent normalization followed by the
phonetic steps 2 to 9. -/
def normalize_name_phonetic : Value → Value
  | Value.str s => Value.str (normalize_name_phonetic_str s)
  | v => v

/-- The accent_patterns table of normalize_name_accent_agnostic in
src/create_accent_agnostic_parquet.py, exactly as the file stores it.
The file is encoding-damaged: every intended accented letter appears as
the two characters obtained by decoding its UTF-8 bytes with a legacy
Latin charset.  The first six entries are regex character classes; the
last two intended single-character patterns became two-character
literal patterns and are modelled separately below.  The class members
are written with explicit code points: U+0102 (uppercase A with
breve), U+00A0 (no-break space), U+0105, U+20AC, U+00A9, U+0161,
U+0218, U+00AB, U+017B, U+017A, U+017D, U+00B6, U+010D, U+00BB,
U+0152, U+017C, U+0153. -/
def agnostic_class_patterns : List (List Char × Char) :=
  [(['Ă', '\xa0', 'Ă', 'ą', 'Ă', '€'], 'a'),
   (['Ă', '©', 'Ă', 'š', 'Ă', 'Ș', 'Ă', '«'], 'e'),
   (['Ă', 'Ż', 'Ă', 'ź'], 'i'),
   (['Ă', 'Ž', 'Ă', '¶'], 'o'),
   (['Ă', 'č', 'Ă', '»', 'Ă', 'Œ'], 'u'),
   (['Ă', 'ż', 'Ă', 'œ'], 'y')]

/-- re.sub with a two-character literal pattern: every occurrence of
the pair (a, b) is replaced by the single character r, scanning left to
right without overlap. -/
def subPair (a b r : Char) : Name → Name
  | c :: d :: rest =>
      if c = a ∧ d = b then r :: subPair a b r rest
      else c :: subPair a b r (d :: rest)
  | s => s

/-- The string-processing body of normalize_name_accent_agnostic:
lowercase, strip, the six (mojibake) class substitutions in table
order, then the two (mojibake) two-character literal substitutions
U+0102 U+00A7 to c and U+0102 U+00B1 to n. -/
def agnosticCore (s : Name) : Name :=
  subPair 'Ă' '±' 'n'
    (subPair 'Ă' '§' 'c'
      (agnostic_class_patterns.foldl (fun t q => subCharClass t q.1 q.2)
        (pyStrip (s.map pyLowerChar))))

/-- normalize_name_accent_agnostic of
src/create_accent_agnostic_parquet.py, with the same guard as the
other folding functions. -/
def normalize_name_accent_agnostic : Value → Value
  | Value.str s => Value.str (if s = [] then s else agnosticCore s)
  | v => v

/-- A dataframe row: an ordered association list of column names and
values. -/
abbrev Row := List (String × Value)

/-- Reading the attribute of a row with the given column name (model of
pl.col applied to one row).  On a frame lacking the column, polars
raises instead of producing a value; the default of this total model
is therefore never exercised by the frame theorem below, whose
hypotheses require the prenom column to be present in every row. -/
def getAttr (r : Row) (n : String) : Value :=
  match r.find? (fun q => q.1 == n) with
  | some q => q.2
  | Option.none => Value.none

/-- The effect of with_columns with one aliased column on one row: if a
column with that name already exists it is REPLACED in place (keeping
its position), otherwise the new column is appended at the end.  This
is the documented polars semantics of with_columns. -/
def setAttr (r : Row) (n : String) (x : Value) : Row :=
  if (r.find? (fun q => q.1 == n)).isSome then
    r.map (fun q => if q.1 == n then (n, x) else q)
  else r ++ [(n, x)]

/-- add_column_to_dataframe of src/preprocessing/process_data.py: for
every row, in order, set the column column_name to the image of the
prenom attribute of that row under the normalization function
(replacing the column if it already exists, appending it otherwise,
following with_columns). -/
def add_column_to_dataframe (df : List Row) (column_name : String)
    (normalization_func : Value → Value) : List Row :=
  df.map (fun r => setAttr r column_name (normalization_func (getAttr r "prenom")))

/-- n_unique of polars on a list of values: the number of distinct
values (model of df.select(col).n_unique() in print_statistics). -/
def n_unique (l : List Value) : Nat := l.toFinset.card

/-- The reduction printed by print_statistics for one normalized
column: distinct originals minus distinct normalized values, as the
(possibly negative) integer Python would compute. -/
def reduction (originals normalized : List Value) : Int :=
  (n_unique originals : Int) - (n_unique normalized : Int)

/-- Membership test for the alphabet [a-z], space, hyphen named by
claim C2. -/
def inAccentAlphabet (c : Char) : Bool :=
  ('a' ≤ c ∧ c ≤ 'z') ∨ c = ' ' ∨ c = '-'

/-- The eighteen accented characters of the accent classes of
normalize_name_accent. -/
def accentedChars : List Char :=
  ['à','â','ä','é','è','ê','ë','ï','î','ô','ö','ù','û','ü','ÿ','ý','ç','ñ']

/-- The replacement characters of the accent classes. -/
def baseLetters : List Char :=
  ['a','e','i','o','u','y','c','n']

/-- The effect of the eight sequential class substitutions of
normalize_name_accent on one character (helper for the proofs: the
class substitutions act independently on each character). -/
def accentFoldChar (c : Char) : Char :=
  accent_patterns.foldl (fun x q => if x ∈ q.1 then q.2 else x) c

/-- Whether the two characters a and b occur adjacently, in this
order, somewhere in the string. -/
def containsPair (a b : Char) : Name → Bool
  | c :: d :: rest => (c = a ∧ d = b : Bool) || containsPair a b (d :: rest)
  | _ => false

/-- Whether no two adjacent characters of the string are equal. -/
def pairwiseNeAdj : Name → Bool
  | c :: d :: rest => (c ≠ d : Bool) && pairwiseNeAdj (d :: rest)
  | _ => true

/-- A string on which every rule of normalize_name_phonetic is the
identity: already lowercase and accent-free, no y, no h, no two equal
adjacent characters, every whitespace character is a single interior
space, no ck, no qu, no trailing ard or ie, and no leading or trailing
space or hyphen. -/
def NormalForm (s : Name) : Prop :=
  (∀ c ∈ s, pyLowerChar c = c) ∧
  (∀ c ∈ s, accentFoldChar c = c) ∧
  'y' ∉ s ∧ 'h' ∉ s ∧
  (∀ c ∈ s, isPySpace c = true → c = ' ') ∧
  pairwiseNeAdj s = true ∧
  containsPair 'c' 'k' s = false ∧
  containsPair 'q' 'u' s = false ∧
  ['a','r','d'].isSuffixOf s = false ∧
  ['i','e'].isSuffixOf s = false ∧
  (s.head?.all fun c => !isDashSpace c) = true ∧
  (s.getLast?.all fun c => !isDashSpace c) = true

/-- Normal form is a decidable property. -/
instance (s : Name) : Decidable (NormalForm s) :=
  inferInstanceAs (Decidable
    ((∀ c ∈ s, pyLowerChar c = c) ∧
     (∀ c ∈ s, accentFoldChar c = c) ∧
     'y' ∉ s ∧ 'h' ∉ s ∧
     (∀ c ∈ s, isPySpace c = true → c = ' ') ∧
     pairwiseNeAdj s = true ∧
     containsPair 'c' 'k' s = false ∧
     containsPair 'q' 'u' s = false ∧
     ['a','r','d'].isSuffixOf s = false ∧
     ['i','e'].isSuffixOf s = false ∧
     (s.head?.all fun c => !isDashSpace c) = true ∧
     (s.getLast?.all fun c => !isDashSpace c) = true))

/-- Steps 2 to 9 of normalize_name_phonetic as a function on values,
with the same guard as the folding functions (helper for the proofs:
normalize_name_phonetic factors through normalize_name_accent). -/
def phoneticTailV : Value → Value
  | Value.str s => Value.str (if s = [] then s else phonSteps s)
  | v => v


/-- C3: the concrete scenarios of the spec hold: fold_accents("Sophie")
is "sophie", fold_phonetic("Sophie") is "sofi", fold_phonetic("Quentin")
is "kentin", fold_phonetic("Hélio") is "elio", fold_phonetic("Marie") is
"mari" and fold_phonetic("Bernard") is "bernar". -/
theorem claim_C3 :
    normalize_name_accent (Value.str "Sophie".data) = Value.str "sophie".data ∧
    normalize_name_phonetic (Value.str "Sophie".data) = Value.str "sofi".data ∧
    normalize_name_phonetic (Value.str "Quentin".data) = Value.str "kentin".data ∧
    normalize_name_phonetic (Value.str "Hélio".data) = Value.str "elio".data ∧
    normalize_name_phonetic (Value.str "Marie".data) = Value.str "mari".data ∧
    normalize_name_phonetic (Value.str "Bernard".data) = Value.str "bernar".data := by
  decide

/-- C5: every input that is not a non-empty string (None, the empty
string, an integer, a boolean) is returned unchanged by both
normalize_name_accent and normalize_name_phonetic; both functions are
total, so no exception is possible. -/
theorem claim_C5 (v : Value) (h : isNonEmptyString v = false) :
    normalize_name_accent v = v ∧ normalize_name_phonetic v = v := by
  cases v with
  | str s =>
      have hs : s = [] := by
        simpa [isNonEmptyString, List.isEmpty_iff] using h
      subst hs
      exact ⟨rfl, rfl⟩
  | none => exact ⟨rfl, rfl⟩
  | int n => exact ⟨rfl, rfl⟩
  | bool b => exact ⟨rfl, rfl⟩

/-- C5 witness: the hypothesis and the conclusion of claim_C5 hold at
the concrete input None. -/
theorem claim_C5_witness :
    isNonEmptyString Value.none = false ∧
    (normalize_name_accent Value.none = Value.none ∧
     normalize_name_phonetic Value.none = Value.none) :=
  ⟨by decide, claim_C5 Value.none (by decide)⟩

/-- C9: evaluation at the failing input "à".  The accent tables of
normalize_name_accent_agnostic are encoding-damaged, so the function
does not remove the accent of "à" (contradicting its own docstring),
while normalize_name_accent maps "à" to "a"; the two functions
therefore do not compute the same function. -/
theorem claim_C9 :
    normalize_name_accent_agnostic (Value.str "à".data) = Value.str "à".data ∧
    normalize_name_accent (Value.str "à".data) = Value.str "a".data := by
  decide

/-- C1 counterexample: fold_phonetic is not idempotent at "chk": the
first application removes the h and exposes "ck", the second then
rewrites "ck" to "k". -/
theorem claim_C1_counterexample :
    normalize_name_phonetic (normalize_name_phonetic (Value.str "chk".data)) ≠
      normalize_name_phonetic (Value.str "chk".data) := by
  decide

/-- C2 counterexample: fold_accents("3") = "3", whose character "3" is
outside the alphabet [a-z], space, hyphen, so the output of
fold_accents is not always confined to that alphabet. -/
theorem claim_C2_counterexample :
    normalize_name_accent (Value.str "3".data) = Value.str "3".data ∧
    inAccentAlphabet '3' = false := by
  decide

/-- Every output character of the lowercase table is itself fixed by
pyLowerChar. -/
theorem lowerTable_snd_fixed : ∀ q ∈ lowerTable, pyLowerChar q.2 = q.2 := by
  decide

/-- The lowercase model is idempotent. -/
theorem pyLowerChar_idem (c : Char) :
    pyLowerChar (pyLowerChar c) = pyLowerChar c := by
  unfold pyLowerChar
  cases hf : lowerTable.find? (fun q => q.1 == c) with
  | none => simp [pyLowerChar, hf]
  | some q =>
      have hq : q ∈ lowerTable := List.mem_of_find?_eq_some hf
      simpa [pyLowerChar] using lowerTable_snd_fixed q hq

/-- Sequential class substitutions over a string act independently on
each character. -/
theorem foldl_subCharClass_eq_map (ps : List (List Char × Char)) (s : Name) :
    ps.foldl (fun t q => subCharClass t q.1 q.2) s =
      s.map (fun c => ps.foldl (fun x q => if x ∈ q.1 then q.2 else x) c) := by
  induction ps generalizing s with
  | nil => simp
  | cons p ps ih =>
      simp only [List.foldl_cons]
      rw [ih]
      simp [subCharClass, List.map_map, Function.comp]

/-- The accent patterns of normalize_name_accent act characterwise. -/
theorem applyAccentPatterns_eq_map (s : Name) :
    applyAccentPatterns s = s.map accentFoldChar := by
  simpa [applyAccentPatterns, accentFoldChar] using
    foldl_subCharClass_eq_map accent_patterns s

/-- Each character is either untouched by the accent fold (and is then
not an accented character) or an accented character sent to a base
letter. -/
theorem accentFoldChar_cases (c : Char) :
    (accentFoldChar c = c ∧ c ∉ accentedChars) ∨
      (c ∈ accentedChars ∧ accentFoldChar c ∈ baseLetters) := by
  by_cases h : c ∈ accentedChars
  · right
    refine ⟨h, ?_⟩
    have hall : ∀ x ∈ accentedChars, accentFoldChar x ∈ baseLetters := by decide
    exact hall c h
  · left
    refine ⟨?_, h⟩
    simp only [accentedChars, List.mem_cons, List.not_mem_nil, or_false,
      not_or] at h
    obtain ⟨h1, h2, h3, h4, h5, h6, h7, h8, h9, h10, h11, h12, h13, h14, h15,
      h16, h17, h18⟩ := h
    simp [accentFoldChar, accent_patterns, h1, h2, h3, h4, h5, h6, h7, h8, h9,
      h10, h11, h12, h13, h14, h15, h16, h17, h18]

/-- The accent fold never produces an accented character. -/
theorem accentFoldChar_not_accented (c : Char) :
    accentFoldChar c ∉ accentedChars := by
  rcases accentFoldChar_cases c with ⟨hfix, hnot⟩ | ⟨_, hmem⟩
  · rw [hfix]; exact hnot
  · have hall : ∀ x ∈ baseLetters, x ∉ accentedChars := by decide
    exact hall _ hmem

/-- The accent fold is idempotent on characters. -/
theorem accentFoldChar_idem (c : Char) :
    accentFoldChar (accentFoldChar c) = accentFoldChar c := by
  rcases accentFoldChar_cases c with ⟨hfix, _⟩ | ⟨_, hmem⟩
  · rw [hfix, hfix]
  · have hall : ∀ x ∈ baseLetters, accentFoldChar x = x := by decide
    exact hall _ hmem

/-- A character produced by the accent fold of a lowercased character
is itself lowercase. -/
theorem pyLowerChar_accentFold (c : Char) :
    pyLowerChar (accentFoldChar (pyLowerChar c)) =
      accentFoldChar (pyLowerChar c) := by
  rcases accentFoldChar_cases (pyLowerChar c) with ⟨hfix, _⟩ | ⟨_, hmem⟩
  · rw [hfix]; exact pyLowerChar_idem c
  · have hall : ∀ x ∈ baseLetters, pyLowerChar x = x := by decide
    exact hall _ hmem

/-- The accent fold preserves whitespace-ness of a character. -/
theorem isPySpace_accentFold (c : Char) :
    isPySpace (accentFoldChar c) = isPySpace c := by
  rcases accentFoldChar_cases c with ⟨hfix, _⟩ | ⟨hacc, hmem⟩
  · rw [hfix]
  · have h1 : ∀ x ∈ baseLetters, isPySpace x = false := by decide
    have h2 : ∀ x ∈ accentedChars, isPySpace x = false := by decide
    rw [h1 _ hmem, h2 _ hacc]

/-- A map whose function fixes every element of the list is the
identity on that list. -/
theorem map_eq_self_of_fixed {f : Char → Char} {s : Name}
    (h : ∀ c ∈ s, f c = c) : s.map f = s := by
  induction s with
  | nil => rfl
  | cons a t ih =>
      simp only [List.map_cons, h a (List.mem_cons_self a t),
        ih (fun c hc => h c (List.mem_cons_of_mem a hc))]

/-- The head surviving dropWhile does not satisfy the dropped
predicate. -/
theorem dropWhile_head_not (p : Char → Bool) (s : Name) :
    ∀ c, (s.dropWhile p).head? = some c → p c = false := by
  induction s with
  | nil => intro c h; simp at h
  | cons a t ih =>
      intro c h
      by_cases ha : p a
      · rw [List.dropWhile_cons_of_pos ha] at h
        exact ih c h
      · rw [List.dropWhile_cons_of_neg ha] at h
        simp only [List.head?_cons, Option.some.injEq] at h
        subst h
        simpa using ha

/-- dropWhile removes an initial segment. -/
theorem dropWhile_append_exists (p : Char → Bool) (s : Name) :
    ∃ u, s = u ++ s.dropWhile p := by
  induction s with
  | nil => exact ⟨[], rfl⟩
  | cons a t ih =>
      by_cases ha : p a
      · obtain ⟨u, hu⟩ := ih
        exact ⟨a :: u, by rw [List.dropWhile_cons_of_pos ha, List.cons_append,
          ← hu]⟩
      · exact ⟨[], by rw [List.dropWhile_cons_of_neg ha, List.nil_append]⟩

/-- dropTrailing removes a final segment. -/
theorem dropTrailing_append_exists (p : Char → Bool) (s : Name) :
    ∃ r, s = dropTrailing p s ++ r := by
  obtain ⟨u, hu⟩ := dropWhile_append_exists p s.reverse
  refine ⟨u.reverse, ?_⟩
  have := congrArg List.reverse hu
  simpa [dropTrailing] using this

/-- stripEnds removes an initial and a final segment. -/
theorem stripEnds_decomp (p : Char → Bool) (s : Name) :
    ∃ u r, s = u ++ stripEnds p s ++ r := by
  obtain ⟨u, hu⟩ := dropWhile_append_exists p s
  obtain ⟨r, hr⟩ := dropTrailing_append_exists p (s.dropWhile p)
  refine ⟨u, r, ?_⟩
  conv_lhs => rw [hu]
  rw [List.append_assoc, stripEnds, ← hr]

/-- Membership survives stripEnds. -/
theorem mem_stripEnds (p : Char → Bool) (s : Name) (c : Char)
    (h : c ∈ stripEnds p s) : c ∈ s := by
  obtain ⟨u, r, hur⟩ := stripEnds_decomp p s
  rw [hur]
  simp [h]

/-- The first character kept by stripEnds does not satisfy the stripped
predicate. -/
theorem stripEnds_head_not (p : Char → Bool) (s : Name) :
    ∀ c, (stripEnds p s).head? = some c → p c = false := by
  intro c h
  obtain ⟨r, hr⟩ := dropTrailing_append_exists p (s.dropWhile p)
  have h' : (dropTrailing p (s.dropWhile p)).head? = some c := h
  refine dropWhile_head_not p s c ?_
  rw [hr]
  cases hd : dropTrailing p (s.dropWhile p) with
  | nil => rw [hd] at h'; simp at h'
  | cons a t =>
      rw [hd] at h'
      simpa using h'

/-- The last character kept by stripEnds does not satisfy the stripped
predicate. -/
theorem stripEnds_getLast_not (p : Char → Bool) (s : Name) :
    ∀ c, (stripEnds p s).getLast? = some c → p c = false := by
  intro c h
  rw [stripEnds, dropTrailing, List.getLast?_reverse] at h
  exact dropWhile_head_not p (s.dropWhile p).reverse c h

/-- dropWhile does nothing when the head does not satisfy the
predicate. -/
theorem dropWhile_eq_self_of_head (p : Char → Bool) (s : Name)
    (h : (s.head?.all fun c => !p c) = true) : s.dropWhile p = s := by
  cases s with
  | nil => rfl
  | cons a t =>
      simp only [List.head?_cons, Option.all_some, Bool.not_eq_true'] at h
      exact List.dropWhile_cons_of_neg (by simp [h])

/-- stripEnds does nothing when neither end satisfies the predicate. -/
theorem stripEnds_eq_self (p : Char → Bool) (s : Name)
    (h1 : (s.head?.all fun c => !p c) = true)
    (h2 : (s.getLast?.all fun c => !p c) = true) : stripEnds p s = s := by
  rw [stripEnds, dropWhile_eq_self_of_head p s h1, dropTrailing,
    dropWhile_eq_self_of_head p s.reverse (by simpa using h2),
    List.reverse_reverse]

/-- accentCore written as a characterwise map after lowering and
stripping. -/
theorem accentCore_eq_map (s : Name) :
    accentCore s = (pyStrip (s.map pyLowerChar)).map accentFoldChar := by
  rw [accentCore, applyAccentPatterns_eq_map]

/-- Every character of an accent-folded string is lowercase. -/
theorem accentCore_lower_fixed (s : Name) :
    ∀ c ∈ accentCore s, pyLowerChar c = c := by
  intro c hc
  rw [accentCore_eq_map] at hc
  obtain ⟨x, hx, rfl⟩ := List.mem_map.mp hc
  obtain ⟨d, _, rfl⟩ := List.mem_map.mp (mem_stripEnds isPySpace _ x hx)
  exact pyLowerChar_accentFold d

/-- Every character of an accent-folded string is fixed by the accent
fold. -/
theorem accentCore_fold_fixed (s : Name) :
    ∀ c ∈ accentCore s, accentFoldChar c = c := by
  intro c hc
  rw [accentCore_eq_map] at hc
  obtain ⟨x, _, rfl⟩ := List.mem_map.mp hc
  exact accentFoldChar_idem x

/-- No character of an accent-folded string is accented. -/
theorem accentCore_not_accented (s : Name) :
    ∀ c ∈ accentCore s, c ∉ accentedChars := by
  intro c hc
  rw [accentCore_eq_map] at hc
  obtain ⟨x, _, rfl⟩ := List.mem_map.mp hc
  exact accentFoldChar_not_accented x

/-- An accent-folded string has no leading whitespace. -/
theorem accentCore_head_not_space (s : Name) :
    ((accentCore s).head?.all fun c => !isPySpace c) = true := by
  rw [accentCore_eq_map, List.head?_map]
  cases hh : (pyStrip (s.map pyLowerChar)).head? with
  | none => rfl
  | some x =>
      have := stripEnds_head_not isPySpace (s.map pyLowerChar) x hh
      simp [Option.all_some, isPySpace_accentFold, this]

/-- An accent-folded string has no trailing whitespace. -/
theorem accentCore_getLast_not_space (s : Name) :
    ((accentCore s).getLast?.all fun c => !isPySpace c) = true := by
  rw [accentCore_eq_map, List.getLast?_map]
  cases hh : (pyStrip (s.map pyLowerChar)).getLast? with
  | none => rfl
  | some x =>
      have := stripEnds_getLast_not isPySpace (s.map pyLowerChar) x hh
      simp [Option.all_some, isPySpace_accentFold, this]

/-- Mapping never increases the number of distinct elements. -/
theorem toFinset_card_map_le (f : Char → Char) (s : Name) :
    (s.map f).toFinset.card ≤ s.toFinset.card := by
  have hsub : (s.map f).toFinset ⊆ s.toFinset.image f := by
    intro x hx
    rw [List.mem_toFinset] at hx
    obtain ⟨a, ha, rfl⟩ := List.mem_map.mp hx
    exact Finset.mem_image.mpr ⟨a, List.mem_toFinset.mpr ha, rfl⟩
  exact le_trans (Finset.card_le_card hsub) Finset.card_image_le

/-- Stripping never increases the number of distinct elements. -/
theorem toFinset_card_stripEnds_le (p : Char → Bool) (s : Name) :
    (stripEnds p s).toFinset.card ≤ s.toFinset.card := by
  refine Finset.card_le_card ?_
  intro x hx
  rw [List.mem_toFinset] at hx ⊢
  exact mem_stripEnds p s x hx

/-- The accent fold is idempotent on strings. -/
theorem accentCore_idem (s : Name) :
    accentCore (accentCore s) = accentCore s := by
  have h1 : (accentCore s).map pyLowerChar = accentCore s :=
    map_eq_self_of_fixed (accentCore_lower_fixed s)
  have h2 : pyStrip (accentCore s) = accentCore s :=
    stripEnds_eq_self isPySpace (accentCore s) (accentCore_head_not_space s)
      (accentCore_getLast_not_space s)
  calc accentCore (accentCore s)
      = applyAccentPatterns (pyStrip ((accentCore s).map pyLowerChar)) := rfl
    _ = applyAccentPatterns (accentCore s) := by rw [h1, h2]
    _ = (accentCore s).map accentFoldChar := applyAccentPatterns_eq_map _
    _ = accentCore s := map_eq_self_of_fixed (accentCore_fold_fixed s)

/-- normalize_name_accent is idempotent on string arguments. -/
theorem normalize_name_accent_str_idem (s : Name) :
    normalize_name_accent_str (normalize_name_accent_str s) =
      normalize_name_accent_str s := by
  by_cases hs : s = []
  · subst hs; rfl
  · have h1 : normalize_name_accent_str s = accentCore s := if_neg hs
    rw [h1]
    by_cases hc : accentCore s = []
    · rw [normalize_name_accent_str, if_pos hc]
    · rw [normalize_name_accent_str, if_neg hc]
      exact accentCore_idem s

/-- C7: accent folding is idempotent: applying normalize_name_accent to
its own output returns that output unchanged, for every value. -/
theorem claim_C7 (v : Value) :
    normalize_name_accent (normalize_name_accent v) =
      normalize_name_accent v := by
  cases v with
  | str s =>
      show Value.str (normalize_name_accent_str (normalize_name_accent_str s)) =
        Value.str (normalize_name_accent_str s)
      rw [normalize_name_accent_str_idem]
  | none => rfl
  | int n => rfl
  | bool b => rfl

/-- C2 (amended): for every string, the output of fold_accents contains
no accented character, is lowercase, has no leading or trailing
whitespace, and its number of distinct characters is at most that of
the input.  The original claim additionally confined the output to
[a-z], space and hyphen, which is refuted by claim_C2_counterexample. -/
theorem claim_C2 (s : Name) :
    (∀ c ∈ normalize_name_accent_str s, c ∉ accentedChars) ∧
    (∀ c ∈ normalize_name_accent_str s, pyLowerChar c = c) ∧
    ((normalize_name_accent_str s).head?.all fun c => !isPySpace c) = true ∧
    ((normalize_name_accent_str s).getLast?.all fun c => !isPySpace c) = true ∧
    (normalize_name_accent_str s).toFinset.card ≤ s.toFinset.card := by
  by_cases hs : s = []
  · subst hs
    refine ⟨?_, ?_, rfl, rfl, ?_⟩ <;> simp [normalize_name_accent_str]
  · rw [normalize_name_accent_str, if_neg hs]
    refine ⟨accentCore_not_accented s, accentCore_lower_fixed s,
      accentCore_head_not_space s, accentCore_getLast_not_space s, ?_⟩
    rw [accentCore_eq_map]
    calc ((pyStrip (s.map pyLowerChar)).map accentFoldChar).toFinset.card
        ≤ (pyStrip (s.map pyLowerChar)).toFinset.card :=
          toFinset_card_map_le _ _
      _ ≤ (s.map pyLowerChar).toFinset.card :=
          toFinset_card_stripEnds_le _ _
      _ ≤ s.toFinset.card := toFinset_card_map_le _ _

/-- Characters of the space-collapsed string come from the input or are
the space put in place of a whitespace run. -/
theorem mem_collapseSpaces (s : Name) (x : Char) (h : x ∈ collapseSpaces s) :
    x ∈ s ∨ x = ' ' := by
  induction s using collapseSpaces.induct with
  | case1 c d rest h1 ih =>
      rw [collapseSpaces, if_pos h1] at h
      rcases ih h with hm | hsp
      · exact Or.inl (List.mem_cons_of_mem c hm)
      · exact Or.inr hsp
  | case2 c d rest h1 ih =>
      rw [collapseSpaces, if_neg h1] at h
      rcases List.mem_cons.mp h with hx | hm
      · by_cases hc : isPySpace c
        · exact Or.inr (by simpa [hc] using hx)
        · exact Or.inl (by simp [hc] at hx; simp [hx])
      · rcases ih hm with hm2 | hsp
        · exact Or.inl (List.mem_cons_of_mem c hm2)
        · exact Or.inr hsp
  | case3 c hc =>
      simp [collapseSpaces, hc] at h
      exact Or.inr h
  | case4 c hc =>
      simp [collapseSpaces, hc] at h
      exact Or.inl (by simp [h])
  | case5 => simp [collapseSpaces] at h

/-- Characters of the hyphen-collapsed string come from the input. -/
theorem mem_collapseHyphens (s : Name) (x : Char)
    (h : x ∈ collapseHyphens s) : x ∈ s := by
  induction s using collapseHyphens.induct with
  | case1 c d rest h1 ih =>
      rw [collapseHyphens, if_pos h1] at h
      exact List.mem_cons_of_mem c (ih h)
  | case2 c d rest h1 ih =>
      rw [collapseHyphens, if_neg h1] at h
      rcases List.mem_cons.mp h with hx | hm
      · simp [hx]
      · exact List.mem_cons_of_mem c (ih hm)
  | case3 s h1 =>
      match s with
      | [] => exact h
      | [c] => exact h
      | c :: d :: r => exact absurd rfl (h1 c d r)

/-- C6: the phonetic fold removes every "h": for every string, the
output of normalize_name_phonetic contains no occurrence of the
character h. -/
theorem claim_C6 (s : Name) : 'h' ∉ normalize_name_phonetic_str s := by
  by_cases hs : s = []
  · subst hs; simp [normalize_name_phonetic_str]
  · have h1 : normalize_name_phonetic_str s = phonSteps (accentCore s) :=
      if_neg hs
    rw [h1, phonSteps]
    intro hmem
    have h2 := mem_stripEnds isDashSpace _ 'h' hmem
    have h3 := mem_collapseHyphens _ 'h' h2
    rcases mem_collapseSpaces _ 'h' h3 with h4 | h4
    · have h5 := (List.mem_filter.mp h4).2
      simp at h5
    · exact absurd h4 (by decide)

/-- The head of the space-collapsed string is the image of the input
head, whitespace going to a single space. -/
theorem collapseSpaces_head (s : Name) :
    (collapseSpaces s).head? =
      s.head?.map (fun c => if isPySpace c then ' ' else c) := by
  induction s using collapseSpaces.induct with
  | case1 c d rest h1 ih =>
      rw [collapseSpaces, if_pos h1, ih]
      simp [h1.1, h1.2]
  | case2 c d rest h1 ih =>
      rw [collapseSpaces, if_neg h1]
      simp
  | case3 c hc => simp [collapseSpaces, hc]
  | case4 c hc => simp [collapseSpaces, hc]
  | case5 => rfl

/-- The head of the hyphen-collapsed string is the input head. -/
theorem collapseHyphens_head (s : Name) :
    (collapseHyphens s).head? = s.head? := by
  induction s using collapseHyphens.induct with
  | case1 c d rest h1 ih =>
      rw [collapseHyphens, if_pos h1, ih]
      simp [h1.1, h1.2]
  | case2 c d rest h1 ih =>
      rw [collapseHyphens, if_neg h1]
      simp
  | case3 s h1 =>
      match s with
      | [] => rfl
      | [c] => rfl
      | c :: d :: r => exact absurd rfl (h1 c d r)

/-- The space-collapsed string has no two adjacent whitespace
characters. -/
theorem collapseSpaces_chain (s : Name) :
    (collapseSpaces s).Chain'
      (fun a b => ¬(isPySpace a = true ∧ isPySpace b = true)) := by
  induction s using collapseSpaces.induct with
  | case1 c d rest h1 ih =>
      rw [collapseSpaces, if_pos h1]
      exact ih
  | case2 c d rest h1 ih =>
      rw [collapseSpaces, if_neg h1]
      refine List.chain'_cons'.mpr ⟨?_, ih⟩
      intro b hb
      rw [collapseSpaces_head (d :: rest)] at hb
      simp only [List.head?_cons, Option.map_some', Option.mem_def,
        Option.some.injEq] at hb
      subst hb
      by_cases hc : isPySpace c <;> by_cases hd : isPySpace d <;>
        simp_all
  | case3 c hc => simp [collapseSpaces, hc]
  | case4 c hc => simp [collapseSpaces, hc]
  | case5 => simp [collapseSpaces]

/-- The hyphen-collapsed string has no two adjacent hyphens. -/
theorem collapseHyphens_chain (s : Name) :
    (collapseHyphens s).Chain' (fun a b => ¬(a = '-' ∧ b = '-')) := by
  induction s using collapseHyphens.induct with
  | case1 c d rest h1 ih =>
      rw [collapseHyphens, if_pos h1]
      exact ih
  | case2 c d rest h1 ih =>
      rw [collapseHyphens, if_neg h1]
      refine List.chain'_cons'.mpr ⟨?_, ih⟩
      intro b hb
      rw [collapseHyphens_head (d :: rest)] at hb
      simp only [List.head?_cons, Option.mem_def, Option.some.injEq] at hb
      subst hb
      exact fun hcd => h1 hcd
  | case3 s h1 =>
      match s with
      | [] => simp [collapseHyphens]
      | [c] => simp [collapseHyphens]
      | c :: d :: r => exact absurd rfl (h1 c d r)

/-- Collapsing hyphens preserves any adjacency invariant of the
input. -/
theorem collapseHyphens_chain_preserve {R : Char → Char → Prop} (s : Name)
    (h : s.Chain' R) : (collapseHyphens s).Chain' R := by
  induction s using collapseHyphens.induct with
  | case1 c d rest h1 ih =>
      rw [collapseHyphens, if_pos h1]
      exact ih (List.chain'_cons.mp h).2
  | case2 c d rest h1 ih =>
      rw [collapseHyphens, if_neg h1]
      obtain ⟨hcd, ht⟩ := List.chain'_cons.mp h
      refine List.chain'_cons'.mpr ⟨?_, ih ht⟩
      intro b hb
      rw [collapseHyphens_head (d :: rest)] at hb
      simp only [List.head?_cons, Option.mem_def, Option.some.injEq] at hb
      subst hb
      exact hcd
  | case3 s h1 =>
      match s with
      | [] => exact h
      | [c] => exact h
      | c :: d :: r => exact absurd rfl (h1 c d r)

/-- Stripping ends preserves any adjacency invariant of the input. -/
theorem stripEnds_chain {R : Char → Char → Prop} (p : Char → Bool) (s : Name)
    (h : s.Chain' R) : (stripEnds p s).Chain' R := by
  obtain ⟨u, r, hur⟩ := stripEnds_decomp p s
  rw [hur] at h
  exact h.left_of_append.right_of_append

/-- A string whose adjacency invariant excludes the ordered pair (a, b)
does not contain that adjacent pair. -/
theorem chain_containsPair_false {R : Char → Char → Prop} {a b : Char}
    (s : Name) (hch : s.Chain' R) (hR : ¬ R a b) :
    containsPair a b s = false := by
  induction s using containsPair.induct a b with
  | case1 c d rest ih =>
      obtain ⟨hcd, ht⟩ := List.chain'_cons.mp hch
      rw [containsPair]
      refine Bool.or_eq_false_iff.mpr ⟨?_, ih ht⟩
      simp only [decide_eq_false_iff_not]
      rintro ⟨rfl, rfl⟩
      exact hR hcd
  | case2 s h1 =>
      match s with
      | [] => rfl
      | [c] => rfl
      | c :: d :: r => exact absurd rfl (h1 c d r)

/-- An option whose only possible content fails p satisfies the
negation test. -/
theorem option_all_not (o : Option Char) (p : Char → Bool)
    (h : ∀ c, o = some c → p c = false) :
    (o.all fun c => !p c) = true := by
  cases o with
  | none => rfl
  | some c => simp [h c rfl]

/-- C10: the phonetic output never starts or ends with a space or a
hyphen, and contains no two adjacent spaces and no two adjacent
hyphens (hence no run of two or more of either). -/
theorem claim_C10 (s : Name) :
    containsPair ' ' ' ' (normalize_name_phonetic_str s) = false ∧
    containsPair '-' '-' (normalize_name_phonetic_str s) = false ∧
    ((normalize_name_phonetic_str s).head?.all fun c => !isDashSpace c) = true ∧
    ((normalize_name_phonetic_str s).getLast?.all fun c => !isDashSpace c) = true := by
  by_cases hs : s = []
  · subst hs; exact ⟨rfl, rfl, rfl, rfl⟩
  · have h1 : normalize_name_phonetic_str s = phonSteps (accentCore s) :=
      if_neg hs
    rw [h1, phonSteps]
    generalize removeH (subIeEnd (subCkQu (subPh (subArdEnd
      (collapseRuns (subY (accentCore s))))))) = y
    refine ⟨?_, ?_, ?_, ?_⟩
    · refine chain_containsPair_false _
        (stripEnds_chain _ _ (collapseHyphens_chain_preserve _
          (collapseSpaces_chain _))) ?_
      decide
    · refine chain_containsPair_false _
        (stripEnds_chain _ _ (collapseHyphens_chain _)) ?_
      decide
    · exact option_all_not _ _ (stripEnds_head_not isDashSpace _)
    · exact option_all_not _ _ (stripEnds_getLast_not isDashSpace _)

/-- The y substitution does nothing on a string without y. -/
theorem subY_id (s : Name) (h : 'y' ∉ s) : subY s = s := by
  refine map_eq_self_of_fixed ?_
  intro c hc
  have : c ≠ 'y' := fun he => h (he ▸ hc)
  rw [if_neg this]

/-- Run collapsing does nothing on a string without two equal adjacent
characters. -/
theorem collapseRuns_id (s : Name) (h : s.Chain' (fun a b => a ≠ b)) :
    collapseRuns s = s := by
  induction s using collapseRuns.induct with
  | case1 c d rest h1 ih =>
      exact absurd h1.1 (List.chain'_cons.mp h).1
  | case2 c d rest h1 ih =>
      rw [collapseRuns, if_neg h1, ih (List.chain'_cons.mp h).2]
  | case3 s h1 =>
      match s with
      | [] => rfl
      | [c] => rfl
      | c :: d :: r => exact absurd rfl (h1 c d r)

/-- The trailing-ard substitution does nothing on a string without that
suffix and without a newline. -/
theorem subArdEnd_id (s : Name) (h1 : ['a','r','d'].isSuffixOf s = false)
    (h2 : '\n' ∉ s) : subArdEnd s = s := by
  rw [subArdEnd, if_neg (by simp [h1]), if_neg ?_]
  intro hcon
  rw [List.isSuffixOf_iff_suffix] at hcon
  exact h2 (hcon.sublist.mem (by simp))

/-- The ph substitution does nothing on a string without h. -/
theorem subPh_id (s : Name) (h : 'h' ∉ s) : subPh s = s := by
  induction s using subPh.induct with
  | case1 c d rest h1 ih =>
      exact absurd (by simp [h1.2]) h
  | case2 c d rest h1 ih =>
      rw [subPh, if_neg h1, ih (fun hm => h (List.mem_cons_of_mem c hm))]
  | case3 s h1 =>
      match s with
      | [] => rfl
      | [c] => rfl
      | c :: d :: r => exact absurd rfl (h1 c d r)

/-- The ck and qu substitution does nothing on a string without those
pairs. -/
theorem subCkQu_id (s : Name) (h1 : containsPair 'c' 'k' s = false)
    (h2 : containsPair 'q' 'u' s = false) : subCkQu s = s := by
  induction s using subCkQu.induct with
  | case1 c d rest hg ih =>
      rw [containsPair, Bool.or_eq_false_iff] at h1 h2
      rcases hg with ⟨rfl, rfl⟩ | ⟨rfl, rfl⟩
      · simp at h1
      · simp at h2
  | case2 c d rest hg ih =>
      rw [containsPair, Bool.or_eq_false_iff] at h1 h2
      rw [subCkQu, if_neg hg, ih h1.2 h2.2]
  | case3 s hg =>
      match s with
      | [] => rfl
      | [c] => rfl
      | c :: d :: r => exact absurd rfl (hg c d r)

/-- The trailing-ie substitution does nothing on a string without that
suffix and without a newline. -/
theorem subIeEnd_id (s : Name) (h1 : ['i','e'].isSuffixOf s = false)
    (h2 : '\n' ∉ s) : subIeEnd s = s := by
  rw [subIeEnd, if_neg (by simp [h1]), if_neg ?_]
  intro hcon
  rw [List.isSuffixOf_iff_suffix] at hcon
  exact h2 (hcon.sublist.mem (by simp))

/-- The h removal does nothing on a string without h. -/
theorem removeH_id (s : Name) (h : 'h' ∉ s) : removeH s = s := by
  rw [removeH, List.filter_eq_self]
  intro a ha
  have : a ≠ 'h' := fun he => h (he ▸ ha)
  simp [this]

/-- Whitespace collapsing does nothing when every whitespace character
is a space and no two adjacent characters are equal. -/
theorem collapseSpaces_id (s : Name)
    (h1 : ∀ c ∈ s, isPySpace c = true → c = ' ')
    (h2 : s.Chain' (fun a b => a ≠ b)) : collapseSpaces s = s := by
  induction s using collapseSpaces.induct with
  | case1 c d rest hg ih =>
      have hc : c = ' ' := h1 c (by simp) hg.1
      have hd : d = ' ' := h1 d (by simp) hg.2
      exact absurd (hc.trans hd.symm) (List.chain'_cons.mp h2).1
  | case2 c d rest hg ih =>
      rw [collapseSpaces, if_neg hg]
      have hke : (if isPySpace c then ' ' else c) = c := by
        by_cases hc : isPySpace c
        · rw [if_pos hc, h1 c (by simp) hc]
        · rw [if_neg hc]
      rw [hke, ih (fun x hx hsp => h1 x (List.mem_cons_of_mem c hx) hsp)
        (List.chain'_cons.mp h2).2]
  | case3 c hc =>
      rw [collapseSpaces, if_pos hc, h1 c (by simp) hc]
  | case4 c hc =>
      rw [collapseSpaces, if_neg hc]
  | case5 => rfl

/-- Hyphen collapsing does nothing when no two adjacent characters are
equal. -/
theorem collapseHyphens_id (s : Name) (h : s.Chain' (fun a b => a ≠ b)) :
    collapseHyphens s = s := by
  induction s using collapseHyphens.induct with
  | case1 c d rest hg ih =>
      exact absurd (hg.1.trans hg.2.symm) (List.chain'_cons.mp h).1
  | case2 c d rest hg ih =>
      rw [collapseHyphens, if_neg hg, ih (List.chain'_cons.mp h).2]
  | case3 s hg =>
      match s with
      | [] => rfl
      | [c] => rfl
      | c :: d :: r => exact absurd rfl (hg c d r)

/-- The accent normalization does nothing on a string that is already
lowercase, accent-free, whitespace-canonical and not bordered by a
space or hyphen. -/
theorem accentCore_id_of (s : Name)
    (hlow : ∀ c ∈ s, pyLowerChar c = c)
    (hfold : ∀ c ∈ s, accentFoldChar c = c)
    (hws : ∀ c ∈ s, isPySpace c = true → c = ' ')
    (hhead : (s.head?.all fun c => !isDashSpace c) = true)
    (hlast : (s.getLast?.all fun c => !isDashSpace c) = true) :
    accentCore s = s := by
  have h1 : s.map pyLowerChar = s := map_eq_self_of_fixed hlow
  have hmemh : ∀ c, s.head? = some c → c ∈ s := by
    intro c hc
    cases s with
    | nil => simp at hc
    | cons a t => simp at hc; simp [hc]
  have hh : (s.head?.all fun c => !isPySpace c) = true := by
    cases hs : s.head? with
    | none => rfl
    | some c =>
        by_cases hp : isPySpace c
        · have hsp : c = ' ' := hws c (hmemh c hs) hp
          rw [hs, hsp] at hhead
          simp [isDashSpace] at hhead
        · simp [hp]
  have hl : (s.getLast?.all fun c => !isPySpace c) = true := by
    cases hs : s.getLast? with
    | none => rfl
    | some c =>
        by_cases hp : isPySpace c
        · have hsp : c = ' ' :=
            hws c (List.mem_of_getLast?_eq_some hs) hp
          rw [hs, hsp] at hlast
          simp [isDashSpace] at hlast
        · simp [hp]
  have h2 : pyStrip s = s := stripEnds_eq_self isPySpace s hh hl
  rw [accentCore, h1]
  rw [show pyStrip s = s from h2, applyAccentPatterns_eq_map]
  exact map_eq_self_of_fixed hfold

/-- The boolean adjacency check implies the adjacency chain
predicate. -/
theorem pairwiseNeAdj_chain (s : Name) (h : pairwiseNeAdj s = true) :
    s.Chain' (fun a b => a ≠ b) := by
  induction s using pairwiseNeAdj.induct with
  | case1 c d rest ih =>
      rw [pairwiseNeAdj, Bool.and_eq_true] at h
      refine List.chain'_cons.mpr ⟨?_, ih h.2⟩
      simpa using h.1
  | case2 s h1 =>
      match s with
      | [] => exact List.chain'_nil
      | [c] => exact List.chain'_singleton c
      | c :: d :: r => exact absurd rfl (h1 c d r)

/-- A string in phonetic normal form is a fixed point of the whole
phonetic fold. -/
theorem phonetic_fixed_of_normal (s : Name) (h : NormalForm s) :
    normalize_name_phonetic_str s = s := by
  obtain ⟨h1, h2, h3, h4, h5, h6, h7, h8, h9, h10, h11, h12⟩ := h
  by_cases hs : s = []
  · subst hs; rfl
  · have hnl : '\n' ∉ s := by
      intro hm
      have := h5 '\n' hm (by decide)
      exact absurd this (by decide)
    have hacc : accentCore s = s := accentCore_id_of s h1 h2 h5 h11 h12
    have hstep : normalize_name_phonetic_str s = phonSteps (accentCore s) :=
      if_neg hs
    have hne := pairwiseNeAdj_chain s h6
    rw [hstep, hacc, phonSteps, subY_id s h3, collapseRuns_id s hne,
      subArdEnd_id s h9 hnl, subPh_id s h4, subCkQu_id s h7 h8,
      subIeEnd_id s h10 hnl, removeH_id s h4, collapseSpaces_id s h5 hne,
      collapseHyphens_id s hne, stripEnds_eq_self isDashSpace s h11 h12]

/-- C1 (amended): fold_phonetic is idempotent on every string in
phonetic normal form, on which it is the identity; it is NOT
idempotent on all strings, as claim_C1_counterexample shows at the
input "chk". -/
theorem claim_C1 (s : Name) (h : NormalForm s) :
    normalize_name_phonetic_str (normalize_name_phonetic_str s) =
      normalize_name_phonetic_str s := by
  simp only [phonetic_fixed_of_normal s h]

/-- C1 witness: the string "kentin" is in phonetic normal form and
applying fold_phonetic twice to it equals applying it once. -/
theorem claim_C1_witness :
    NormalForm "kentin".data ∧
    normalize_name_phonetic_str (normalize_name_phonetic_str "kentin".data) =
      normalize_name_phonetic_str "kentin".data :=
  ⟨by decide, claim_C1 "kentin".data (by decide)⟩

/-- normalize_name_phonetic factors through normalize_name_accent
followed by the phonetic steps. -/
theorem phonetic_factor (v : Value) :
    normalize_name_phonetic v = phoneticTailV (normalize_name_accent v) := by
  cases v with
  | str s =>
      by_cases hs : s = []
      · subst hs; rfl
      · have hp : normalize_name_phonetic_str s = phonSteps (accentCore s) :=
          if_neg hs
        have ha : normalize_name_accent_str s = accentCore s := if_neg hs
        show Value.str (normalize_name_phonetic_str s) =
          phoneticTailV (Value.str (normalize_name_accent_str s))
        rw [hp, ha]
        show Value.str (phonSteps (accentCore s)) =
          Value.str (if accentCore s = [] then accentCore s
            else phonSteps (accentCore s))
        by_cases hc : accentCore s = []
        · rw [if_pos hc, hc]; rfl
        · rw [if_neg hc]
  | none => rfl
  | int n => rfl
  | bool b => rfl

/-- Mapping a function over a column never increases the number of
distinct values. -/
theorem n_unique_map_le (f : Value → Value) (l : List Value) :
    n_unique (l.map f) ≤ n_unique l := by
  have hsub : (l.map f).toFinset ⊆ l.toFinset.image f := by
    intro x hx
    rw [List.mem_toFinset] at hx
    obtain ⟨a, ha, rfl⟩ := List.mem_map.mp hx
    exact Finset.mem_image.mpr ⟨a, List.mem_toFinset.mpr ha, rfl⟩
  exact le_trans (Finset.card_le_card hsub) Finset.card_image_le

/-- C4: folding only merges values: the distinct count of accent-folded
names is at most the distinct count of the originals, the distinct
count of phonetic-folded names is at most the distinct count of
accent-folded names, and both reductions printed by print_statistics
are non-negative. -/
theorem claim_C4 (names : List Value) :
    n_unique (names.map normalize_name_accent) ≤ n_unique names ∧
    n_unique (names.map normalize_name_phonetic) ≤
      n_unique (names.map normalize_name_accent) ∧
    0 ≤ reduction names (names.map normalize_name_accent) ∧
    0 ≤ reduction names (names.map normalize_name_phonetic) := by
  have h1 := n_unique_map_le normalize_name_accent names
  have h2 : names.map normalize_name_phonetic =
      (names.map normalize_name_accent).map phoneticTailV := by
    rw [List.map_map]
    exact List.map_congr_left (fun a _ => phonetic_factor a)
  have h3 : n_unique (names.map normalize_name_phonetic) ≤
      n_unique (names.map normalize_name_accent) := by
    rw [h2]
    exact n_unique_map_le phoneticTailV _
  have h4 : n_unique (names.map normalize_name_phonetic) ≤ n_unique names :=
    le_trans h3 h1
  refine ⟨h1, h3, ?_, ?_⟩
  · unfold reduction; omega
  · unfold reduction; omega

/-- Appending a column with a fresh name does not change the value of
any other attribute. -/
theorem getAttr_append_skip (r : Row) (m : String) (x : Value) (n : String)
    (h : (m == n) = false) : getAttr (r ++ [(m, x)]) n = getAttr r n := by
  induction r with
  | nil => simp [getAttr, List.find?, h]
  | cons a r ih =>
      cases ha : (a.1 == n) with
      | true => simp [getAttr, List.find?_cons, ha]
      | false =>
          rw [List.cons_append]
          simp only [getAttr, List.find?_cons, ha]
          exact ih

/-- Setting a column whose name is fresh for the row appends it. -/
theorem setAttr_fresh (r : Row) (n : String) (x : Value)
    (h : ∀ q ∈ r, q.1 ≠ n) : setAttr r n x = r ++ [(n, x)] := by
  have hf : r.find? (fun q => q.1 == n) = Option.none :=
    List.find?_eq_none.mpr (fun q hq => by simp [h q hq])
  rw [setAttr, hf]
  rfl

/-- C8 counterexample: on a dataset that already carries a
prenom_accent_normalized column (a valid input, since
previously-produced artifacts remain valid inputs), with_columns
REPLACES that column, so the pre-existing attribute value 7 is
overwritten with "lea" and the frame claim fails as stated. -/
theorem claim_C8_counterexample :
    add_column_to_dataframe
        (add_column_to_dataframe
          [[("prenom", Value.str "Léa".data),
            ("prenom_accent_normalized", Value.int 7)]]
          "prenom_accent_normalized" normalize_name_accent)
        "prenom_phonetic_normalized" normalize_name_phonetic =
      [[("prenom", Value.str "Léa".data),
        ("prenom_accent_normalized", Value.str "lea".data),
        ("prenom_phonetic_normalized", Value.str "lea".data)]] ∧
    Value.str "lea".data ≠ Value.int 7 := by
  decide

/-- C8 (amended): adding the normalized-name columns is
frame-preserving on every dataset whose rows all carry a prenom
attribute (otherwise the program raises) and none of whose rows
already carries a column named prenom_accent_normalized or
prenom_phonetic_normalized: the output is the input with the rows in
their original order, each row extended by exactly the two new
attributes computed from its prenom attribute, every pre-existing
attribute value unmodified.  Without the freshness condition
with_columns overwrites the like-named column, as
claim_C8_counterexample shows. -/
theorem claim_C8 (df : List Row)
    (_hpren : ∀ r ∈ df, (r.find? (fun q => q.1 == "prenom")).isSome = true)
    (hfresh : ∀ r ∈ df, ∀ q ∈ r,
      q.1 ≠ "prenom_accent_normalized" ∧ q.1 ≠ "prenom_phonetic_normalized") :
    add_column_to_dataframe
        (add_column_to_dataframe df "prenom_accent_normalized"
          normalize_name_accent)
        "prenom_phonetic_normalized" normalize_name_phonetic =
      df.map (fun r =>
        r ++ [("prenom_accent_normalized",
                normalize_name_accent (getAttr r "prenom")),
              ("prenom_phonetic_normalized",
                normalize_name_phonetic (getAttr r "prenom"))]) := by
  rw [add_column_to_dataframe, add_column_to_dataframe, List.map_map]
  refine List.map_congr_left ?_
  intro r hr
  simp only [Function.comp]
  have hfr := hfresh r hr
  rw [setAttr_fresh r _ _ (fun q hq => (hfr q hq).1)]
  have hfr2 : ∀ q ∈ r ++ [("prenom_accent_normalized",
      normalize_name_accent (getAttr r "prenom"))],
      q.1 ≠ "prenom_phonetic_normalized" := by
    intro q hq
    rcases List.mem_append.mp hq with hql | hqr
    · exact (hfr q hql).2
    · rw [List.mem_singleton] at hqr
      rw [hqr]
      show "prenom_accent_normalized" ≠ "prenom_phonetic_normalized"
      decide
  rw [setAttr_fresh _ _ _ hfr2]
  rw [getAttr_append_skip r _ _ _ (by decide)]
  rw [List.append_assoc]
  rfl

/-- C8 witness: the hypotheses and the conclusion of claim_C8 hold at
a concrete one-row dataset carrying a prenom attribute and one extra
attribute. -/
theorem claim_C8_witness :
    (∀ r ∈ [[("prenom", Value.str "Léa".data), ("annee", Value.int 1999)]],
      (r.find? (fun q => q.1 == "prenom")).isSome = true) ∧
    (∀ r ∈ [[("prenom", Value.str "Léa".data), ("annee", Value.int 1999)]],
      ∀ q ∈ r, q.1 ≠ "prenom_accent_normalized" ∧
        q.1 ≠ "prenom_phonetic_normalized") ∧
    add_column_to_dataframe
        (add_column_to_dataframe
          [[("prenom", Value.str "Léa".data), ("annee", Value.int 1999)]]
          "prenom_accent_normalized" normalize_name_accent)
        "prenom_phonetic_normalized" normalize_name_phonetic =
      [[("prenom", Value.str "Léa".data), ("annee", Value.int 1999)]].map
        (fun r =>
          r ++ [("prenom_accent_normalized",
                  normalize_name_accent (getAttr r "prenom")),
                ("prenom_phonetic_normalized",
                  normalize_name_phonetic (getAttr r "prenom"))]) :=
  ⟨by decide, by decide,
    claim_C8 [[("prenom", Value.str "Léa".data), ("annee", Value.int 1999)]]
      (by decide) (by decide)⟩
